import Mathlib

/-!
Verification of the Bulk BSP library core (repository cneira/Bulk).

The development shallowly embeds the parts of the C++ sources that the
claims concern:

* `bulk::detail::scale` and `bulk::detail::memory_buffer` (serialization),
* `bulk::queue` delivery hooks (`get_buffer_`, `clear_`, the push hooks,
  `size`, `empty`) and the `sender` send paths,
* `bulk::epiphany::stream::write`,
* `bulk::cyclic_partitioning` index maps.

Machine bytes are modelled as natural numbers, buffers as lists of bytes,
and a fixed-width (trivially copyable) C++ value is identified with its
byte representation, a list whose length is the value's size_of.
-/

namespace Bulk

/-- The number of values of a 32-bit unsigned machine word; the Epiphany
target has 32-bit addresses, int and size_t. -/
def UINT : Nat := 2 ^ 32

/-- Embedding of bulk::detail::memory_buffer: a flat byte buffer of fixed
size together with the read/write cursor index. -/
structure memory_buffer where
  buffer : List Nat
  index : Nat
deriving Repr, DecidableEq

/-- Embedding of the fixed-width write operator of memory_buffer:
memcpy of the value's bytes into the buffer at the cursor, then the cursor
advances by size_of of the value. -/
def memwrite (b : memory_buffer) (bs : List Nat) : memory_buffer :=
  ⟨b.buffer.take b.index ++ bs ++ b.buffer.drop (b.index + bs.length),
   b.index + bs.length⟩

/-- Embedding of the fixed-width read operator of memory_buffer:
memcpy of size_of bytes out of the buffer at the cursor, then the cursor
advances by that size. -/
def memread (b : memory_buffer) (w : Nat) : List Nat × memory_buffer :=
  ((b.buffer.drop b.index).take w, ⟨b.buffer, b.index + w⟩)

/-- Helper used to state round trips: the same buffer with the cursor
moved back to a given position. -/
def rewind (b : memory_buffer) (i : Nat) : memory_buffer :=
  ⟨b.buffer, i⟩

theorem memwrite_index (b : memory_buffer) (bs : List Nat) :
    (memwrite b bs).index = b.index + bs.length := rfl

theorem memwrite_length (b : memory_buffer) (bs : List Nat)
    (h : b.index + bs.length ≤ b.buffer.length) :
    (memwrite b bs).buffer.length = b.buffer.length := by
  simp [memwrite]
  omega

/-- Two consecutive fixed-width writes are one write of the concatenated
bytes, provided the cursor starts inside the buffer. -/
theorem memwrite_memwrite (b : memory_buffer) (xs ys : List Nat)
    (h : b.index ≤ b.buffer.length) :
    memwrite (memwrite b xs) ys = memwrite b (xs ++ ys) := by
  have hA : (b.buffer.take b.index ++ xs).length = b.index + xs.length := by
    simp [List.length_take]; omega
  have h1 : ((b.buffer.take b.index ++ xs) ++
        b.buffer.drop (b.index + xs.length)).take (b.index + xs.length) =
      b.buffer.take b.index ++ xs := List.take_left' hA
  have h2 : ((b.buffer.take b.index ++ xs) ++
        b.buffer.drop (b.index + xs.length)).drop
          (b.index + xs.length + ys.length) =
      b.buffer.drop (b.index + xs.length + ys.length) := by
    rw [← List.drop_drop, List.drop_left' hA, List.drop_drop]
  unfold memwrite
  congr 1
  · dsimp only
    rw [h1, h2]
    simp [List.append_assoc, Nat.add_assoc]
  · dsimp only
    simp [Nat.add_assoc]

/-- The cursor-inside-buffer invariant is preserved by every write. -/
theorem memwrite_index_le (b : memory_buffer) (bs : List Nat)
    (h : b.index ≤ b.buffer.length) :
    (memwrite b bs).index ≤ (memwrite b bs).buffer.length := by
  simp [memwrite]
  omega

/-- Embedding of the char instantiation of memory_buffer::operator<<:
a one-byte fixed-width write. -/
def memwrite_char (b : memory_buffer) (c : Nat) : memory_buffer :=
  memwrite b [c]

/-- Embedding of memory_buffer::operator<<(std::string&): the loop writes
each character of the string through the char operator and then writes the
terminating NUL character. -/
def memwrite_str (b : memory_buffer) (s : List Nat) : memory_buffer :=
  memwrite_char (s.foldl memwrite_char b) 0

/-- The bytes std::string(char*) collects from a byte sequence: the
characters up to but not including the first NUL byte. -/
def cstr (l : List Nat) : List Nat :=
  l.takeWhile (fun c => c != 0)

/-- Embedding of memory_buffer::operator>>(std::string&): reads the C
string at the cursor and advances the cursor by its length plus one. -/
def memread_str (b : memory_buffer) : List Nat × memory_buffer :=
  let s := cstr (b.buffer.drop b.index)
  (s, ⟨b.buffer, b.index + s.length + 1⟩)

/-- The character-by-character write loop of the string serializer equals
one block write of the string's bytes. -/
theorem foldl_memwrite_char (s : List Nat) (b : memory_buffer)
    (h : b.index ≤ b.buffer.length) :
    s.foldl memwrite_char b = memwrite b s := by
  induction s generalizing b with
  | nil =>
    simp [memwrite]
  | cons c cs ih =>
    rw [List.foldl_cons]
    have hc : memwrite_char b c = memwrite b [c] := rfl
    rw [hc, ih (memwrite b [c]) (memwrite_index_le b [c] h),
      memwrite_memwrite b [c] cs h]
    rfl

/-- The string serializer writes exactly the string's bytes followed by
one NUL byte at the cursor. -/
theorem memwrite_str_eq (b : memory_buffer) (s : List Nat)
    (h : b.index ≤ b.buffer.length) :
    memwrite_str b s = memwrite b (s ++ [0]) := by
  unfold memwrite_str
  rw [foldl_memwrite_char s b h]
  show memwrite (memwrite b s) [0] = _
  rw [memwrite_memwrite b s [0] h]

/-- What a write leaves in the buffer from the original cursor on: the
written bytes, then the original tail. -/
theorem memwrite_buffer_drop (b : memory_buffer) (bs : List Nat)
    (h : b.index ≤ b.buffer.length) :
    (memwrite b bs).buffer.drop b.index =
      bs ++ b.buffer.drop (b.index + bs.length) := by
  have hT : (b.buffer.take b.index).length = b.index := by
    simp [List.length_take]; omega
  unfold memwrite
  dsimp only
  rw [List.append_assoc, List.drop_left' hT]

/-- Little-endian byte image of a 32-bit int, as memcpy of an int lays it
out on the little-endian Epiphany target. -/
def natToBytes4 (n : Nat) : List Nat :=
  [n % 256, n / 256 % 256, n / 65536 % 256, n / 16777216 % 256]

/-- Value of a little-endian 4-byte int image. -/
def bytes4ToNat : List Nat → Nat
  | a :: b :: c :: d :: _ => a + 256 * b + 65536 * c + 16777216 * d
  | _ => 0

theorem bytes4_round (n : Nat) (hn : n < UINT) :
    bytes4ToNat (natToBytes4 n) = n := by
  simp only [natToBytes4, bytes4ToNat, UINT] at *
  omega

/-- Embedding of memory_buffer::operator<<(std::vector<T>&): writes the
element count as an int, then each element as a fixed-width value. Each
element is represented by its byte image. -/
def memwrite_vec (b : memory_buffer) (elems : List (List Nat)) :
    memory_buffer :=
  elems.foldl memwrite (memwrite b (natToBytes4 elems.length))

/-- Embedding of memory_buffer::operator>>(std::vector<T>&) for elements
of size w: reads the int count at the cursor, then memcpy of
count * size_of element bytes; the cursor advances past both. The byte
block is the concatenation of the element images. -/
def memread_vec (b : memory_buffer) (w : Nat) :
    Nat × List Nat × memory_buffer :=
  let sz := bytes4ToNat ((b.buffer.drop b.index).take 4)
  (sz, (b.buffer.drop (b.index + 4)).take (w * sz),
   ⟨b.buffer, b.index + 4 + sz * w⟩)

theorem join_length_const (elems : List (List Nat)) (w : Nat)
    (h : ∀ e ∈ elems, e.length = w) :
    elems.flatten.length = elems.length * w := by
  induction elems with
  | nil => simp
  | cons e es ih =>
    simp only [List.flatten, List.length_append, List.length_cons]
    rw [ih (fun x hx => h x (List.mem_cons_of_mem e hx)),
      h e (List.mem_cons_self e es)]
    ring

/-- The element write loop of the vector serializer equals one block write
of the concatenated element images. -/
theorem foldl_memwrite (elems : List (List Nat)) (b : memory_buffer)
    (h : b.index ≤ b.buffer.length) :
    elems.foldl memwrite b = memwrite b elems.flatten := by
  induction elems generalizing b with
  | nil => simp [memwrite]
  | cons e es ih =>
    rw [List.foldl_cons, ih (memwrite b e) (memwrite_index_le b e h),
      memwrite_memwrite b e es.flatten h]
    rfl

/-- The vector serializer writes the 4 count bytes followed by the
concatenated element images. -/
theorem memwrite_vec_eq (b : memory_buffer) (elems : List (List Nat))
    (h : b.index ≤ b.buffer.length) :
    memwrite_vec b elems =
      memwrite b (natToBytes4 elems.length ++ elems.flatten) := by
  unfold memwrite_vec
  rw [foldl_memwrite elems _ (memwrite_index_le b (natToBytes4 elems.length) h),
    memwrite_memwrite b (natToBytes4 elems.length) elems.flatten h]

/-- Round trip for fixed-width values: reading back at the write position
recovers the bytes and leaves the cursor where the write left it. -/
theorem memread_memwrite (b : memory_buffer) (bs : List Nat)
    (h : b.index + bs.length ≤ b.buffer.length) :
    memread (rewind (memwrite b bs) b.index) bs.length =
      (bs, rewind (memwrite b bs) (memwrite b bs).index) := by
  have h0 : b.index ≤ b.buffer.length := by omega
  unfold memread rewind
  dsimp only
  rw [memwrite_buffer_drop b bs h0, List.take_left' rfl, memwrite_index]

/-- Round trip for strings without embedded NUL bytes. -/
theorem memread_str_memwrite_str (b : memory_buffer) (s : List Nat)
    (hs : ∀ c ∈ s, c ≠ 0)
    (h : b.index + s.length + 1 ≤ b.buffer.length) :
    memread_str (rewind (memwrite_str b s) b.index) =
      (s, rewind (memwrite_str b s) (memwrite_str b s).index) := by
  have h0 : b.index ≤ b.buffer.length := by omega
  rw [memwrite_str_eq b s h0]
  have hpos : ∀ c ∈ s, (c != 0) = true := by
    intro c hc
    simpa using hs c hc
  have hc : cstr ((memwrite b (s ++ [0])).buffer.drop b.index) = s := by
    rw [memwrite_buffer_drop b (s ++ [0]) h0, List.append_assoc,
      List.singleton_append]
    unfold cstr
    rw [List.takeWhile_append_of_pos hpos]
    simp [List.takeWhile_cons]
  unfold memread_str rewind
  dsimp only
  rw [hc, memwrite_index]
  simp [Nat.add_assoc]

/-- Round trip for vectors of fixed-width elements, each of byte size w,
with a count that fits in a positive int. -/
theorem memread_vec_memwrite_vec (b : memory_buffer) (w : Nat)
    (elems : List (List Nat))
    (hw : ∀ e ∈ elems, e.length = w)
    (hn : elems.length < 2 ^ 31)
    (h : b.index + 4 + elems.length * w ≤ b.buffer.length) :
    memread_vec (rewind (memwrite_vec b elems) b.index) w =
      (elems.length, elems.flatten,
        rewind (memwrite_vec b elems) (memwrite_vec b elems).index) := by
  have h0 : b.index ≤ b.buffer.length := by omega
  rw [memwrite_vec_eq b elems h0]
  have hlen4 : (natToBytes4 elems.length).length = 4 := rfl
  have hfl : elems.flatten.length = w * elems.length := by
    rw [join_length_const elems w hw, Nat.mul_comm]
  have hdrop := memwrite_buffer_drop b (natToBytes4 elems.length ++ elems.flatten) h0
  have hsz : bytes4ToNat
      (((memwrite b (natToBytes4 elems.length ++ elems.flatten)).buffer.drop
        b.index).take 4) = elems.length := by
    rw [hdrop, List.append_assoc, List.take_left' hlen4]
    exact bytes4_round elems.length (by unfold UINT; omega)
  have hbody : ((memwrite b (natToBytes4 elems.length ++
        elems.flatten)).buffer.drop (b.index + 4)).take (w * elems.length) =
      elems.flatten := by
    rw [← List.drop_drop, hdrop, List.append_assoc, List.drop_left' hlen4,
      List.take_left' hfl]
  unfold memread_vec rewind
  dsimp only
  simp only [hsz, hbody, memwrite_index, List.length_append, hlen4, hfl,
    Prod.mk.injEq, memory_buffer.mk.injEq]
  refine ⟨trivial, trivial, trivial, ?_⟩
  rw [Nat.mul_comm elems.length w]
  omega

/-- C1 (amended). Serializing a fixed-width value with the write operator
of memory_buffer and then reading at the same cursor position with the
same type yields the bitwise-identical value; the same round trip yields
the same logical string for every string free of embedded NUL bytes, and
the same logical vector for every vector of fixed-width elements whose
count fits in a nonnegative int; in each case the value must fit in the
buffer and the read ends at the cursor the write reached. -/
theorem serialization_roundtrip :
    (∀ (b : memory_buffer) (bs : List Nat),
      b.index + bs.length ≤ b.buffer.length →
      memread (rewind (memwrite b bs) b.index) bs.length =
        (bs, rewind (memwrite b bs) (memwrite b bs).index)) ∧
    (∀ (b : memory_buffer) (s : List Nat),
      (∀ c ∈ s, c ≠ 0) →
      b.index + s.length + 1 ≤ b.buffer.length →
      memread_str (rewind (memwrite_str b s) b.index) =
        (s, rewind (memwrite_str b s) (memwrite_str b s).index)) ∧
    (∀ (b : memory_buffer) (w : Nat) (elems : List (List Nat)),
      (∀ e ∈ elems, e.length = w) →
      elems.length < 2 ^ 31 →
      b.index + 4 + elems.length * w ≤ b.buffer.length →
      memread_vec (rewind (memwrite_vec b elems) b.index) w =
        (elems.length, elems.flatten,
          rewind (memwrite_vec b elems) (memwrite_vec b elems).index)) :=
  ⟨memread_memwrite, memread_str_memwrite_str, memread_vec_memwrite_vec⟩

/-- C1, original wording, refuted for strings: the std::string of the two
bytes 97, 0 (an embedded NUL is a legal string byte) serializes and then
deserializes to the one-byte string 97, not to the same logical string. -/
theorem serialization_roundtrip_string_cex :
    (memread_str (rewind (memwrite_str ⟨[9, 9, 9, 9], 0⟩ [97, 0]) 0)).1 = [97] ∧
    [97] ≠ [97, 0] := by decide

/-- Concrete instantiation of the round-trip theorem for one fixed-width
value, one NUL-free string and one int vector. -/
theorem serialization_roundtrip_witness :
    memread (rewind (memwrite ⟨[9, 9], 0⟩ [5]) 0) 1 =
      ([5], rewind (memwrite ⟨[9, 9], 0⟩ [5]) (memwrite ⟨[9, 9], 0⟩ [5]).index) ∧
    memread_str (rewind (memwrite_str ⟨[7, 7, 7], 0⟩ [97]) 0) =
      ([97], rewind (memwrite_str ⟨[7, 7, 7], 0⟩ [97])
        (memwrite_str ⟨[7, 7, 7], 0⟩ [97]).index) ∧
    memread_vec (rewind (memwrite_vec ⟨List.replicate 8 3, 0⟩ [[1], [2]]) 0) 1 =
      ([[1], [2]].length, [[1], [2]].flatten,
        rewind (memwrite_vec ⟨List.replicate 8 3, 0⟩ [[1], [2]])
          (memwrite_vec ⟨List.replicate 8 3, 0⟩ [[1], [2]]).index) :=
  ⟨serialization_roundtrip.1 ⟨[9, 9], 0⟩ [5] (by decide),
   serialization_roundtrip.2.1 ⟨[7, 7, 7], 0⟩ [97] (by decide) (by decide),
   serialization_roundtrip.2.2 ⟨List.replicate 8 3, 0⟩ 1 [[1], [2]]
     (by decide) (by decide) (by decide)⟩

/-- A heterogeneous serializable value as memory_buffer sees it: a
fixed-width value given by its bytes, a std::string given by its
characters, or a std::vector of fixed-width elements of size w given by
the element byte images. -/
inductive ser_item where
  | fixed (bs : List Nat)
  | str (s : List Nat)
  | vec (w : Nat) (elems : List (List Nat))
deriving Repr, DecidableEq

/-- An item is well formed when each vector element really has the
declared element size (the size_of of the element type). -/
def item_wf : ser_item → Bool
  | .vec w elems => elems.all (fun e => e.length == w)
  | _ => true

/-- Embedding of bulk::detail::scale::operator|: one accumulation step of
the size field. A fixed-width value adds size_of of its type, a string
adds its length plus one char, a vector adds size_of int plus count times
size_of the element type. -/
def scale_step (size : Nat) : ser_item → Nat
  | .fixed bs => size + bs.length
  | .str s => size + (s.length + 1) * 1
  | .vec w elems => size + (4 + elems.length * w)

/-- The size field of a scale object after piping every value of the list
through operator|, starting from the zero-initialized field. -/
def scale_run (items : List ser_item) : Nat :=
  items.foldl scale_step 0

/-- Writing one heterogeneous value with the matching memory_buffer
operator. -/
def memwrite_item (b : memory_buffer) : ser_item → memory_buffer
  | .fixed bs => memwrite b bs
  | .str s => memwrite_str b s
  | .vec _ elems => memwrite_vec b elems

/-- Writing a whole heterogeneous sequence in order. -/
def memwrite_run (b : memory_buffer) (items : List ser_item) :
    memory_buffer :=
  items.foldl memwrite_item b

theorem foldl_memwrite_char_index (s : List Nat) (b : memory_buffer) :
    (s.foldl memwrite_char b).index = b.index + s.length := by
  induction s generalizing b with
  | nil => rfl
  | cons c cs ih =>
    rw [List.foldl_cons, ih]
    show (memwrite b [c]).index + cs.length = _
    rw [memwrite_index]
    simp
    omega

theorem foldl_memwrite_index (elems : List (List Nat)) (b : memory_buffer) :
    (elems.foldl memwrite b).index =
      b.index + (elems.map List.length).sum := by
  induction elems generalizing b with
  | nil => simp
  | cons e es ih =>
    rw [List.foldl_cons, ih, memwrite_index]
    simp
    omega

/-- The cursor advance of one write equals the scale accumulation of the
same value. -/
theorem memwrite_item_index (b : memory_buffer) (it : ser_item)
    (h : item_wf it = true) :
    (memwrite_item b it).index = b.index + scale_step 0 it := by
  cases it with
  | fixed bs =>
    rw [show memwrite_item b (.fixed bs) = memwrite b bs from rfl,
      memwrite_index]
    simp [scale_step]
  | str s =>
    show (memwrite_char (s.foldl memwrite_char b) 0).index = _
    rw [show ∀ b', memwrite_char b' 0 = memwrite b' [0] from fun _ => rfl,
      memwrite_index, foldl_memwrite_char_index]
    simp [scale_step]
    omega
  | vec w elems =>
    show (elems.foldl memwrite (memwrite b (natToBytes4 elems.length))).index = _
    rw [foldl_memwrite_index, memwrite_index]
    have hall : ∀ e ∈ elems, e.length = w := by simpa [item_wf] using h
    have hsum : (elems.map List.length).sum = elems.length * w := by
      rw [← List.length_flatten]
      exact join_length_const elems w hall
    rw [hsum]
    simp [scale_step, natToBytes4]
    omega

theorem scale_step_shift (a : Nat) (it : ser_item) :
    scale_step a it = a + scale_step 0 it := by
  cases it <;> simp [scale_step]

theorem foldl_scale_step_shift (items : List ser_item) (a : Nat) :
    items.foldl scale_step a = a + items.foldl scale_step 0 := by
  induction items generalizing a with
  | nil => simp
  | cons it its ih =>
    rw [List.foldl_cons, List.foldl_cons, ih (scale_step a it),
      ih (scale_step 0 it), scale_step_shift a it]
    omega

/-- C2. For every heterogeneous sequence of values (fixed-width values,
strings, vectors of fixed-width elements), the total size accumulated by
piping each value through scale::operator| equals exactly the number of
bytes by which the memory_buffer cursor advances when the same values are
written in the same order with operator<<. -/
theorem scale_matches_cursor_advance (b : memory_buffer)
    (items : List ser_item) (h : ∀ it ∈ items, item_wf it = true) :
    (memwrite_run b items).index = b.index + scale_run items := by
  induction items generalizing b with
  | nil => simp [memwrite_run, scale_run]
  | cons it its ih =>
    have h1 : item_wf it = true := h it (List.mem_cons_self it its)
    have h2 : ∀ x ∈ its, item_wf x = true :=
      fun x hx => h x (List.mem_cons_of_mem it hx)
    show (its.foldl memwrite_item (memwrite_item b it)).index = _
    rw [show (its.foldl memwrite_item (memwrite_item b it)) =
        memwrite_run (memwrite_item b it) its from rfl, ih _ h2,
      memwrite_item_index b it h1]
    show _ = b.index + (it :: its).foldl scale_step 0
    rw [List.foldl_cons, foldl_scale_step_shift its (scale_step 0 it)]
    show _ = b.index + (scale_step 0 it + scale_run its)
    omega

/-- Concrete instantiation of the scale theorem on a mixed sequence: one
two-byte value, one string, one vector of two two-byte elements. -/
theorem scale_matches_cursor_advance_witness :
    (memwrite_run ⟨List.replicate 16 0, 0⟩
        [.fixed [1, 2], .str [97], .vec 2 [[5, 6], [7, 8]]]).index =
      0 + scale_run [.fixed [1, 2], .str [97], .vec 2 [[5, 6], [7, 8]]] :=
  scale_matches_cursor_advance ⟨List.replicate 16 0, 0⟩
    [.fixed [1, 2], .str [97], .vec 2 [[5, 6], [7, 8]]] (by decide)

/-- C3, original wording, refuted: serializing the two-character string
of bytes 97, 98 writes exactly the 3 bytes 97, 98, 0 at the cursor; the
serialized form starts with the first character of the string, not with a
byte count (which would have been the byte 2), and its total size 3
cannot even hold a 4-byte int length field before the bytes. -/
theorem string_length_field_cex :
    (memwrite_str ⟨[255, 255, 255, 255], 0⟩ [97, 98]).buffer.take 3 =
      [97, 98, 0] ∧
    (memwrite_str ⟨[255, 255, 255, 255], 0⟩ [97, 98]).index = 3 ∧
    ((memwrite_str ⟨[255, 255, 255, 255], 0⟩ [97, 98]).buffer.take 3).head? ≠
      some 2 := by decide

/-- C3 (amended). For every string, serializing it writes the string's
bytes followed by the NUL terminator and no length field; the cursor (and
the scale size) advances by the string length plus one byte, the count
scale::operator| accounts for. -/
theorem string_serialized_form (b : memory_buffer) (s : List Nat)
    (h : b.index + s.length + 1 ≤ b.buffer.length) :
    memwrite_str b s = memwrite b (s ++ [0]) ∧
    ((memwrite_str b s).buffer.drop b.index).take (s.length + 1) =
      s ++ [0] ∧
    (memwrite_str b s).index = b.index + (s.length + 1) ∧
    scale_step 0 (.str s) = s.length + 1 := by
  have h0 : b.index ≤ b.buffer.length := by omega
  have he := memwrite_str_eq b s h0
  refine ⟨he, ?_, ?_, by simp [scale_step]⟩
  · rw [he, memwrite_buffer_drop b (s ++ [0]) h0,
      List.take_left' (by simp)]
  · rw [he, memwrite_index]
    simp

/-- Concrete instantiation of the amended string form theorem. -/
theorem string_serialized_form_witness :
    memwrite_str ⟨[9, 9, 9], 0⟩ [97] = memwrite ⟨[9, 9, 9], 0⟩ ([97] ++ [0]) ∧
    ((memwrite_str ⟨[9, 9, 9], 0⟩ [97]).buffer.drop 0).take 2 = [97] ++ [0] ∧
    (memwrite_str ⟨[9, 9, 9], 0⟩ [97]).index = 0 + 2 ∧
    scale_step 0 (.str [97]) = 2 :=
  string_serialized_form ⟨[9, 9, 9], 0⟩ [97] (by decide)

/-- One low-level send the world receives during a superstep: destination
processor, queue registration id, message payload. -/
structure send_event (M : Type) where
  dst : Int
  queue_id : Int
  msg : M

/-- Embedding of queue::impl::send_: one world_.send_ call carrying the
destination, the queue id and the message bytes. The effect is the trace
of issued sends. -/
def send_ {M : Type} (id t : Int) (m : M) : List (send_event M) :=
  [⟨t, id, m⟩]

/-- Embedding of the vector overload sender::send(std::vector): the loop
issues impl_->send_(t_, msg) once per element, in list order. -/
def sender_send_vector {M : Type} (id t : Int) (msgs : List M) :
    List (send_event M) :=
  msgs.foldl (fun tr m => tr ++ send_ id t m) []

/-- Embedding of the variadic single-message sender::send(Us...): builds
the message from the arguments and issues impl_->send_(t_, msg) once. -/
def sender_send_one {M : Type} (id t : Int) (m : M) : List (send_event M) :=
  send_ id t m

theorem foldl_append_send {M : Type} (id t : Int) (msgs : List M)
    (acc : List (send_event M)) :
    msgs.foldl (fun tr m => tr ++ send_ id t m) acc =
      acc ++ (msgs.map (sender_send_one id t)).flatten := by
  induction msgs generalizing acc with
  | nil => simp
  | cons m ms ih =>
    rw [List.foldl_cons, ih]
    simp [sender_send_one]

/-- C4. For every destination t and message list msgs, the vector overload
of sender::send issues exactly the sequence of sends that calling the
single-message sender::send once per element of msgs in list order issues:
the same (destination, queue id, message) events in the same order. -/
theorem send_vector_is_repeated_sends {M : Type} (id t : Int)
    (msgs : List M) :
    sender_send_vector id t msgs =
      (msgs.map (sender_send_one id t)).flatten := by
  unfold sender_send_vector
  rw [foldl_append_send]
  simp

/-- A delivered message whose first content type is an array: the array
content together with the remaining tuple fields. -/
structure array_message (E R : Type) where
  content : List E
  rest : R

theorem set_append_last {α : Type} (l : List α) (a b : α) :
    (l ++ [a]).set l.length b = l ++ [b] := by
  induction l with
  | nil => rfl
  | cons x xs ih =>
    simp only [List.cons_append, List.length_cons, List.set]
    rw [List.append_eq, ih]

/-- Embedding of queue::impl::unsafe_push_array. With size_of_other == 0
it push_backs a default-constructed message_type and then resizes the
array content of the last slot to the count and memcpy's the count source
elements into it; otherwise it push_backs the message *other (array part
empty, remaining fields the trailing fields) and fills the array content
of the last slot the same way. -/
def queue_push_array {E R : Type} (data_ : List (array_message E R))
    (elems : List E) (other : Option (array_message E R))
    (dflt : array_message E R) : List (array_message E R) :=
  match other with
  | none =>
    let d := data_ ++ [dflt]
    d.set (d.length - 1) { dflt with content := elems }
  | some o =>
    let d := data_ ++ [o]
    d.set (d.length - 1) { o with content := elems }

/-- C5. Delivering an array-valued message through unsafe_push_array
appends exactly one message to the local delivery buffer: its array
content is the given elements in order, and its remaining fields are the
trailing fields when those are supplied (the fields of the
default-constructed message otherwise). -/
theorem push_array_single_message {E R : Type}
    (data_ : List (array_message E R)) (elems : List E)
    (dflt : array_message E R) :
    queue_push_array data_ elems none dflt =
      data_ ++ [⟨elems, dflt.rest⟩] ∧
    ∀ o : array_message E R,
      queue_push_array data_ elems (some o) dflt =
        data_ ++ [⟨elems, o.rest⟩] := by
  constructor
  · show (let d := data_ ++ [dflt]
      d.set (d.length - 1) { dflt with content := elems }) = _
    simp only [List.length_append, List.length_singleton,
      Nat.add_sub_cancel]
    exact set_append_last data_ dflt ⟨elems, dflt.rest⟩
  · intro o
    show (let d := data_ ++ [o]
      d.set (d.length - 1) { o with content := elems }) = _
    simp only [List.length_append, List.length_singleton,
      Nat.add_sub_cancel]
    exact set_append_last data_ o ⟨elems, o.rest⟩

/-- Embedding of std::vector::resize: keep the first n slots, default
construct the slots that are missing. -/
def vector_resize {A : Type} (l : List A) (n : Nat) (dflt : A) : List A :=
  if n ≤ l.length then l.take n else l ++ List.replicate (n - l.length) dflt

theorem vector_resize_length {A : Type} (l : List A) (n : Nat) (dflt : A) :
    (vector_resize l n dflt).length = n := by
  unfold vector_resize
  split
  · simp [List.length_take]
    omega
  · simp
    omega

/-- Embedding of queue::impl::get_buffer_: data_.resize(size_in_bytes /
size_of message_type), with the C++ integer division, then hand back the
storage. -/
def get_buffer_ {A : Type} (data_ : List A) (size_in_bytes msg_size : Nat)
    (dflt : A) : List A :=
  vector_resize data_ (size_in_bytes / msg_size) dflt

/-- C6. For every byte count n that is a multiple of the positive message
size, get_buffer_(n) resizes the local delivery buffer to hold exactly
n / size_of message_type slots: its capacity in bytes is then exactly n,
room for all incoming messages. -/
theorem get_buffer_holds_all {A : Type} (data_ : List A)
    (n m : Nat) (dflt : A) (_hm : 0 < m) (hdvd : m ∣ n) :
    (get_buffer_ data_ n m dflt).length = n / m ∧
    (get_buffer_ data_ n m dflt).length * m = n := by
  unfold get_buffer_
  refine ⟨vector_resize_length data_ (n / m) dflt, ?_⟩
  rw [vector_resize_length data_ (n / m) dflt]
  exact Nat.div_mul_cancel hdvd

/-- Concrete instantiation: 12 incoming bytes of 4-byte messages yield a
3-slot buffer. -/
theorem get_buffer_holds_all_witness :
    (get_buffer_ ([] : List Nat) 12 4 0).length = 12 / 4 ∧
    (get_buffer_ ([] : List Nat) 12 4 0).length * 4 = 12 :=
  get_buffer_holds_all [] 12 4 0 (by decide) (by decide)

/-- Embedding of queue::impl::clear_: data_.clear(). -/
def clear_ {A : Type} (_ : List A) : List A := []

/-- Embedding of queue::size: data_.size(). -/
def queue_size {A : Type} (data_ : List A) : Nat := data_.length

/-- Embedding of queue::empty: data_.empty(). -/
def queue_empty {A : Type} (data_ : List A) : Bool := data_.isEmpty

/-- C7. After clear_(), the local delivery buffer holds no messages in
every starting state: size() is 0 and empty() is true, so a buffer filled
at one barrier persists only until clear_() runs at the next. -/
theorem clear_empties_queue {A : Type} (data_ : List A) :
    queue_size (clear_ data_) = 0 ∧ queue_empty (clear_ data_) = true :=
  ⟨rfl, rfl⟩

/-- Embedding of queue::impl::unsafe_push_back: data_.push_back(*msg). -/
def queue_push_back {A : Type} (data_ : List A) (m : A) : List A :=
  data_ ++ [m]

/-- C8. unsafe_push_back appends exactly one message equal to its
argument at the end of the local delivery buffer: size() grows by one,
the new last slot holds the message, and every message already in the
buffer is unchanged at its previous position. -/
theorem push_back_appends {A : Type} (data_ : List A) (m : A) :
    queue_size (queue_push_back data_ m) = queue_size data_ + 1 ∧
    (queue_push_back data_ m)[data_.length]? = some m ∧
    ∀ i, i < data_.length →
      (queue_push_back data_ m)[i]? = data_[i]? := by
  refine ⟨by simp [queue_size, queue_push_back], ?_, ?_⟩
  · unfold queue_push_back
    rw [List.getElem?_append_right (Nat.le_refl _)]
    simp
  · intro i hi
    unfold queue_push_back
    rw [List.getElem?_append, if_pos hi]

/-- Concrete instantiation of the frame part of the push_back theorem. -/
theorem push_back_appends_witness :
    (queue_push_back [10, 20] 30)[0]? = [10, 20][0]? :=
  (push_back_appends [10, 20] 30).2.2 0 (by decide)

/-- State of a bulk::epiphany::stream as far as write is concerned: the
capacity of the local window and the offset of the cursor from the start
of the buffer. Addresses are 32-bit unsigned words. -/
structure stream_st where
  capacity : Nat
  cursor : Nat
deriving Repr, DecidableEq

/-- Value of an unsigned 32-bit word reinterpreted as the signed 32-bit
int the function returns: two's complement, negative from 2^31 up. -/
def toInt32 (n : Nat) : Int :=
  if n % UINT < 2 ^ 31 then ((n % UINT : Nat) : Int)
  else ((n % UINT : Nat) : Int) - (UINT : Int)

/-- Embedding of bulk::epiphany::stream::write. remaining is the unsigned
difference buffer + capacity - cursor; if the requested size exceeds it
the function returns -1 and does nothing, otherwise the size is rounded
up to a multiple of 8 in size_t arithmetic, one DMA transfer of that many
bytes to the cursor is pushed, and the cursor advances by the rounded
size. The result is the returned int (the rounded size_t converted to a
signed 32-bit int), the new state, and the trace of pushed DMA transfers
(destination offset, byte count). -/
def stream_write (s : stream_st) (sz : Nat) :
    Int × stream_st × List (Nat × Nat) :=
  let remaining := (s.capacity + UINT - s.cursor) % UINT
  if sz > remaining then
    (-1, s, [])
  else
    let sz2 := (sz + 8 - 1) % UINT / 8 * 8
    (toInt32 sz2, ⟨s.capacity, (s.cursor + sz2) % UINT⟩, [(s.cursor, sz2)])

/-- C9. With the cursor inside the buffer, and the capacity small enough
(below 2^31 - 7) that the rounded size stays in the nonnegative int
range, a write whose size exceeds the bytes remaining up to the end of
the buffer returns -1, schedules no DMA transfer and leaves the cursor
unchanged; a write whose size fits returns the size rounded up to the
next multiple of 8, schedules one transfer of that many bytes, and
advances the cursor by exactly the rounded size. -/
theorem stream_write_spec (s : stream_st) (sz : Nat)
    (hcur : s.cursor ≤ s.capacity) (hcap : s.capacity + 8 ≤ 2 ^ 31) :
    (sz > s.capacity - s.cursor → stream_write s sz = (-1, s, [])) ∧
    (sz ≤ s.capacity - s.cursor →
      stream_write s sz =
        ((((sz + 7) / 8 * 8 : Nat) : Int),
          ⟨s.capacity, s.cursor + (sz + 7) / 8 * 8⟩,
          [(s.cursor, (sz + 7) / 8 * 8)]) ∧
      sz ≤ (sz + 7) / 8 * 8 ∧ (sz + 7) / 8 * 8 < sz + 8 ∧
      8 ∣ (sz + 7) / 8 * 8) := by
  have hrem : (s.capacity + UINT - s.cursor) % UINT =
      s.capacity - s.cursor := by
    unfold UINT at *
    omega
  constructor
  · intro hgt
    unfold stream_write
    rw [hrem, if_pos hgt]
  · intro hle
    have h7 : (sz + 8 - 1) % UINT = sz + 7 := by
      unfold UINT at *
      omega
    have hc2 : (s.cursor + (sz + 7) / 8 * 8) % UINT =
        s.cursor + (sz + 7) / 8 * 8 := by
      unfold UINT at *
      omega
    have hlt : (sz + 7) / 8 * 8 < 2 ^ 31 := by omega
    have ht : toInt32 ((sz + 7) / 8 * 8) = (((sz + 7) / 8 * 8 : Nat) : Int) := by
      unfold toInt32
      rw [Nat.mod_eq_of_lt (by unfold UINT; omega), if_pos hlt]
    refine ⟨?_, by omega, by omega, ⟨(sz + 7) / 8, Nat.mul_comm _ 8⟩⟩
    unfold stream_write
    rw [hrem, if_neg (by omega)]
    rw [h7]
    show (toInt32 ((sz + 7) / 8 * 8),
        (⟨s.capacity, (s.cursor + (sz + 7) / 8 * 8) % UINT⟩ : stream_st),
        [(s.cursor, (sz + 7) / 8 * 8)]) = _
    rw [hc2, ht]

/-- Concrete instantiation of the stream write theorem: in a 64-byte
window with the cursor at offset 60, a 5-byte write is rejected and a
3-byte write succeeds, rounded up to 8 bytes. -/
theorem stream_write_spec_witness :
    stream_write ⟨64, 60⟩ 5 = (-1, ⟨64, 60⟩, []) ∧
    (stream_write ⟨64, 60⟩ 3 =
        ((((3 + 7) / 8 * 8 : Nat) : Int), ⟨64, 60 + (3 + 7) / 8 * 8⟩,
          [(60, (3 + 7) / 8 * 8)]) ∧
      3 ≤ (3 + 7) / 8 * 8 ∧ (3 + 7) / 8 * 8 < 3 + 8 ∧ 8 ∣ (3 + 7) / 8 * 8) :=
  ⟨(stream_write_spec ⟨64, 60⟩ 5 (by decide) (by decide)).1 (by decide),
   (stream_write_spec ⟨64, 60⟩ 3 (by decide) (by decide)).2 (by decide)⟩

/-- Embedding of bulk::cyclic_partitioning<D, G>: the dimension of the
data, the dimension of the processor grid, and the global data size and
processor-grid size along each axis. Index vectors are maps from axis to
coordinate. -/
structure cyclic_partitioning where
  D : Nat
  G : Nat
  global_size : Nat → Nat
  grid_size : Nat → Nat

/-- Embedding of cyclic_partitioning::grid_owner: cyclic in the first G
dimensions, coordinate modulo grid size. -/
def grid_owner (p : cyclic_partitioning) (xs : Nat → Nat) (d : Nat) : Nat :=
  xs d % p.grid_size d

/-- Embedding of cyclic_partitioning::global_to_local: division by the
grid size in the first G dimensions, identity in the rest. -/
def global_to_local (p : cyclic_partitioning) (xs : Nat → Nat) (d : Nat) :
    Nat :=
  if d < p.G then xs d / p.grid_size d else xs d

/-- Embedding of cyclic_partitioning::local_size: in the first G
dimensions the processor at idxs owns ceil((global - idxs) / grid)
elements, written as in the source; in the remaining dimensions the whole
axis. -/
def local_size (p : cyclic_partitioning) (idxs : Nat → Nat) (d : Nat) :
    Nat :=
  if d < p.G then
    (p.global_size d + p.grid_size d - idxs d - 1) / p.grid_size d
  else p.global_size d

/-- C10. For every in-range global index (with a positive processor grid
along the first G axes), the cyclic maps are mutually consistent: the
owner coordinate lies below the grid size in each of the first G
dimensions, and the local index is strictly below the local size of the
owning processor in every dimension. -/
theorem cyclic_partitioning_consistent (p : cyclic_partitioning)
    (xs : Nat → Nat)
    (hgrid : ∀ d, d < p.G → 0 < p.grid_size d)
    (hx : ∀ d, d < p.D → xs d < p.global_size d) :
    (∀ d, d < p.G → grid_owner p xs d < p.grid_size d) ∧
    (∀ d, d < p.D →
      global_to_local p xs d < local_size p (grid_owner p xs) d) := by
  constructor
  · intro d hdG
    exact Nat.mod_lt (xs d) (hgrid d hdG)
  · intro d hdD
    by_cases hdG : d < p.G
    · unfold global_to_local local_size grid_owner
      rw [if_pos hdG, if_pos hdG]
      rw [Nat.lt_iff_add_one_le, Nat.le_div_iff_mul_le (hgrid d hdG)]
      have hqm := Nat.div_add_mod (xs d) (p.grid_size d)
      have ho := Nat.mod_lt (xs d) (hgrid d hdG)
      have hxd := hx d hdD
      have hmul : (xs d / p.grid_size d + 1) * p.grid_size d =
          p.grid_size d * (xs d / p.grid_size d) + p.grid_size d := by
        ring
      rw [hmul]
      omega
    · unfold global_to_local local_size
      rw [if_neg hdG, if_neg hdG]
      exact hx d hdD

/-- Concrete instantiation: data size 5 per axis, a 2-processor grid on
the first of two axes, global index 4 on each axis. -/
theorem cyclic_partitioning_consistent_witness :
    grid_owner ⟨2, 1, fun _ => 5, fun _ => 2⟩ (fun _ => 4) 0 <
      cyclic_partitioning.grid_size ⟨2, 1, fun _ => 5, fun _ => 2⟩ 0 ∧
    global_to_local ⟨2, 1, fun _ => 5, fun _ => 2⟩ (fun _ => 4) 1 <
      local_size ⟨2, 1, fun _ => 5, fun _ => 2⟩
        (grid_owner ⟨2, 1, fun _ => 5, fun _ => 2⟩ (fun _ => 4)) 1 :=
  ⟨(cyclic_partitioning_consistent ⟨2, 1, fun _ => 5, fun _ => 2⟩ (fun _ => 4)
      (fun _ _ => by show (0 : Nat) < 2; decide)
      (fun _ _ => by show (4 : Nat) < 5; decide)).1 0 (by decide),
   (cyclic_partitioning_consistent ⟨2, 1, fun _ => 5, fun _ => 2⟩ (fun _ => 4)
      (fun _ _ => by show (0 : Nat) < 2; decide)
      (fun _ _ => by show (4 : Nat) < 5; decide)).2 1 (by decide)⟩

end Bulk
